import Mathlib

set_option maxRecDepth 100000

/-
Verification of the devpath-cli directory-scan and tech-stack
classification pipeline.  The definitions below are shallow embeddings of
the JavaScript source: file lists are lists of strings, JavaScript objects
with insertion-ordered keys are association lists, thrown errors are the
error side of Except, and the filesystem is an explicit parameter.
-/

/- ===== Node.js posix path primitives =====
   Embedded from the algorithms in Node lib/path.js (posix variants),
   which the source calls as path.extname, path.basename, path.dirname. -/

/-- Characters of the last forward-slash separated segment of a character
list (the suffix after the final slash). -/
def lastSegment (cs : List Char) : List Char :=
  (cs.reverse.takeWhile (fun c => c != '/')).reverse

/-- Characters of a path with all trailing forward slashes removed. -/
def dropTrailingSlashes (cs : List Char) : List Char :=
  (cs.reverse.dropWhile (fun c => c == '/')).reverse

/-- Node path.extname (posix): the extension of the last segment, empty
when the last dot is the first character of the segment, the segment has
no dot, or the trimmed segment is exactly two dots. -/
def extname (p : String) : String :=
  let stripped := dropTrailingSlashes p.data
  let seg := lastSegment stripped
  let after := seg.reverse.takeWhile (fun c => c != '.')
  if after.length == seg.length then ""
  else
    let dotIdx := seg.length - after.length - 1
    if dotIdx == 0 then ""
    else if seg == ['.', '.'] then ""
    else String.mk ('.' :: after.reverse)

/-- Node path.basename (posix, no suffix argument): the last segment after
stripping trailing slashes. -/
def basename (p : String) : String :=
  String.mk (lastSegment (dropTrailingSlashes p.data))

/-- Node path.dirname (posix): everything before the slash that precedes
the last segment, with the root cases of the Node algorithm. -/
def dirname (p : String) : String :=
  let cs := p.data
  if cs.isEmpty then "."
  else
    let hasRoot := cs.head? == some '/'
    let stripped := dropTrailingSlashes cs
    let seg := lastSegment stripped
    let restLen := stripped.length - seg.length
    if restLen == 0 then (if hasRoot then "/" else ".")
    else
      let endIdx := restLen - 1
      if endIdx == 0 then "/"
      else if hasRoot && endIdx == 1 then "//"
      else String.mk (cs.take endIdx)

/-- JavaScript String.prototype.toLowerCase restricted to the ASCII range
that file extensions use (character-wise lowering). -/
def toLowerStr (s : String) : String := String.mk (s.data.map Char.toLower)

/-- JavaScript String.prototype.endsWith: suffix test. -/
def endsWithStr (s post : String) : Bool :=
  post.data.reverse.isPrefixOf s.data.reverse

/-- JavaScript String.prototype.split with a one-character separator:
every occurrence splits, empty pieces are kept, and the empty string
yields one empty piece. -/
def splitChar (sep : Char) : List Char → List (List Char)
  | [] => [[]]
  | c :: rest =>
    let r := splitChar sep rest
    if c = sep then [] :: r
    else
      match r with
      | [] => [[c]]
      | h :: t => (c :: h) :: t

/-- The pieces of content.split(newline) as strings. -/
def splitLines (s : String) : List String :=
  (splitChar '\n' s.data).map String.mk

/- ===== Tech classifier: languages (src/unnamed/part_006 lines 9-68) ===== -/

/-- One detected language entry, as pushed by detectLanguages. -/
structure LanguageEntry where
  name : String
  count : Nat
  extension : String
deriving Repr, DecidableEq

/-- Increments the count of a key of the insertion-ordered histogram,
appending the key with count 1 when absent; this models
`extensions[ext]++` on a plain JavaScript object. -/
def bumpExt : List (String × Nat) → String → List (String × Nat)
  | [], e => [(e, 1)]
  | (k, n) :: rest, e =>
      if k = e then (k, n + 1) :: rest else (k, n) :: bumpExt rest e

/-- The file-extension histogram built by the forEach loop of
detectLanguages; keys appear in order of first occurrence, files whose
extname is empty are skipped. -/
def countExtensions (files : List String) : List (String × Nat) :=
  files.foldl
    (fun acc f =>
      let ext := toLowerStr (extname f)
      if ext = "" then acc else bumpExt acc ext)
    []

/-- The fixed extension-to-language table of detectLanguages. -/
def extensionMap : List (String × String) :=
  [(".js", "JavaScript"), (".jsx", "JavaScript (React)"),
   (".ts", "TypeScript"), (".tsx", "TypeScript (React)"),
   (".html", "HTML"), (".css", "CSS"), (".scss", "SCSS"),
   (".sass", "Sass"), (".less", "Less"), (".py", "Python"),
   (".rb", "Ruby"), (".java", "Java"), (".php", "PHP"),
   (".go", "Go"), (".rs", "Rust"), (".c", "C"), (".cpp", "C++"),
   (".cs", "C#"), (".swift", "Swift"), (".kt", "Kotlin"),
   (".sh", "Shell"), (".md", "Markdown"), (".json", "JSON"),
   (".yml", "YAML"), (".yaml", "YAML"), (".xml", "XML"),
   (".sql", "SQL")]

/-- The language list of detectLanguages before the final sort: one entry
per histogram key that is in the extension table, in histogram order. -/
def languagesUnsorted (files : List String) : List LanguageEntry :=
  (countExtensions files).filterMap
    (fun p =>
      match extensionMap.lookup p.1 with
      | some nm => some ⟨nm, p.2, p.1⟩
      | none => none)

/-- The comparator `(a, b) => b.count - a.count` of the source sort call,
as the total preorder it induces. -/
def countGE (a b : LanguageEntry) : Prop := b.count ≤ a.count

instance : DecidableRel countGE := fun a b => Nat.decLe b.count a.count

instance : IsTotal LanguageEntry countGE :=
  ⟨fun a b => Nat.le_total b.count a.count⟩

instance : IsTrans LanguageEntry countGE :=
  ⟨fun _ _ _ hab hbc => Nat.le_trans hbc hab⟩

/-- detectLanguages: histogram of known extensions mapped to display
names, sorted by count descending; JavaScript Array.prototype.sort is
stable, and a stable sort by a total preorder has a unique result, so the
stable insertion sort by the comparator order is a faithful model. -/
def detectLanguages (files : List String) : List LanguageEntry :=
  (languagesUnsorted files).insertionSort countGE

/- ===== Tech classifier: frameworks and tools
   (src/unnamed/part_006 lines 76-214) ===== -/

/-- One framework or tool entry; version is populated only by the
manifest step. -/
structure FrameworkEntry where
  name : String
  version : Option String
deriving Repr, DecidableEq

/-- Parsed package.json with its two dependency maps in declaration
order. -/
structure Manifest where
  dependencies : List (String × String)
  devDependencies : List (String × String)
deriving Repr, DecidableEq

/-- Lookup in the allDeps object built by the two spreads; the later
spread of devDependencies overrides dependencies on a shared key. -/
def allDepsLookup (pj : Manifest) (k : String) : Option String :=
  match pj.devDependencies.lookup k with
  | some v => some v
  | none => pj.dependencies.lookup k

/-- Truthiness of allDeps[dep] in the source conditions: the key is
present with a nonempty version string (an empty string is falsy). -/
def depTruthy (pj : Manifest) (k : String) : Bool :=
  match allDepsLookup pj k with
  | some v => v != ""
  | none => false

/-- Version picked when a rule fires: the value of the first candidate
dependency with a truthy value, as computed by
`rule.deps.map(dep => allDeps[dep]).find(v => v)` in detectFrameworks and
by `allDeps[rule.deps.find(dep => allDeps[dep])]` in detectTools. -/
def firstTruthyVersion (pj : Manifest) (deps : List String) : Option String :=
  (deps.filterMap (fun d =>
    match allDepsLookup pj d with
    | some v => if v = "" then none else some v
    | none => none)).head?

/-- Framework detection rules of detectFrameworks. -/
def frameworkRules : List (String × List String) :=
  [("React", ["react", "react-dom"]), ("Angular", ["@angular/core"]),
   ("Vue.js", ["vue"]), ("Express", ["express"]), ("Next.js", ["next"]),
   ("Gatsby", ["gatsby"]), ("NestJS", ["@nestjs/core"]),
   ("Svelte", ["svelte"]), ("Electron", ["electron"]),
   ("AWS CDK", ["aws-cdk-lib"])]

/-- Entries pushed by the forEach loop over a rule table when the
manifest is present. -/
def rulesEntries (pj : Manifest) (rules : List (String × List String)) :
    List FrameworkEntry :=
  rules.filterMap (fun rule =>
    if rule.2.any (depTruthy pj) then
      some ⟨rule.1, firstTruthyVersion pj rule.2⟩
    else none)

/-- File patterns of detectFrameworks. -/
def filePatternsFrameworks : List (String × String) :=
  [("angular.json", "Angular"), ("vue.config.js", "Vue.js"),
   ("next.config.js", "Next.js"), ("gatsby-config.js", "Gatsby"),
   ("svelte.config.js", "Svelte"), ("electron-builder.yml", "Electron"),
   ("cdk.json", "AWS CDK")]

/-- One step of a pattern loop: append a version-less entry when the
pattern matched and no entry with the display name is present yet. -/
def addIfAbsent (entries : List FrameworkEntry) (hit : Bool) (nm : String) :
    List FrameworkEntry :=
  if hit && !(entries.any (fun e => e.name == nm)) then entries ++ [⟨nm, none⟩]
  else entries

/-- detectFrameworks: manifest rules, then file patterns with the
duplicate guard, then the JSX fallback for React. -/
def detectFrameworks (files : List String) (packageJson : Option Manifest) :
    List FrameworkEntry :=
  let fromManifest :=
    match packageJson with
    | some pj => rulesEntries pj frameworkRules
    | none => []
  let afterPatterns := filePatternsFrameworks.foldl
    (fun fws pr => addIfAbsent fws (files.any (fun f => endsWithStr f pr.1)) pr.2)
    fromManifest
  addIfAbsent afterPatterns
    (files.any (fun f => endsWithStr f ".jsx" || endsWithStr f ".tsx")) "React"

/-- Tool detection rules of detectTools. -/
def toolRules : List (String × List String) :=
  [("Webpack", ["webpack"]), ("Babel", ["@babel/core"]),
   ("ESLint", ["eslint"]), ("Jest", ["jest"]), ("Mocha", ["mocha"]),
   ("Chai", ["chai"]), ("TypeScript", ["typescript"]),
   ("Prettier", ["prettier"]), ("Sass", ["sass", "node-sass"]),
   ("Lodash", ["lodash"]), ("Axios", ["axios"]), ("Redux", ["redux"]),
   ("GraphQL", ["graphql"]), ("Sequelize", ["sequelize"]),
   ("Mongoose", ["mongoose"]), ("Commander.js", ["commander"]),
   ("dotenv", ["dotenv"])]

/-- File patterns of detectTools, matched with String.prototype.includes. -/
def filePatternsTools : List (String × String) :=
  [(".eslintrc", "ESLint"), (".prettierrc", "Prettier"),
   ("webpack.config.js", "Webpack"), ("babel.config.js", "Babel"),
   ("jest.config.js", "Jest"), ("tsconfig.json", "TypeScript"),
   (".env", "dotenv")]

/-- Tests whether pat occurs as a contiguous sublist of the second
argument. -/
def substrAux (pat : List Char) : List Char → Bool
  | [] => pat.isEmpty
  | s@(_ :: rest) => pat.isPrefixOf s || substrAux pat rest

/-- JavaScript String.prototype.includes: contiguous substring test. -/
def containsSubstr (s pat : String) : Bool := substrAux pat.data s.data

/-- detectTools: manifest rules, then file patterns with the duplicate
guard. -/
def detectTools (files : List String) (packageJson : Option Manifest) :
    List FrameworkEntry :=
  let fromManifest :=
    match packageJson with
    | some pj => rulesEntries pj toolRules
    | none => []
  filePatternsTools.foldl
    (fun ts pr => addIfAbsent ts (files.any (fun f => containsSubstr f pr.1)) pr.2)
    fromManifest

/- ===== Quality heuristics: checkBestPractices
   (src/unnamed/part_006 lines 356-413) ===== -/

/-- Detected technology stack. -/
structure TechStack where
  languages : List LanguageEntry
  frameworks : List FrameworkEntry
  tools : List FrameworkEntry
deriving Repr, DecidableEq

/-- One code-quality insight. -/
structure QualityInsight where
  type : String
  severity : String
  message : String
deriving Repr, DecidableEq

/-- The insight pushed for an oversized script file. -/
def bigFileInsight (f : String) (n : Nat) : QualityInsight :=
  ⟨"best-practice", "medium",
   "File " ++ f ++ " has " ++ toString n ++ " lines. Consider breaking it into smaller modules."⟩

/-- The body of the oversized-file loop for one file: skip unreadable
files, otherwise push one insight when the split line count exceeds 300. -/
def bigFileStep (readFile : String → Option String) (f : String) :
    List QualityInsight :=
  match readFile f with
  | none => []
  | some content =>
    let lines := splitLines content
    if lines.length > 300 then [bigFileInsight f lines.length] else []

/-- The script files selected for the oversized-file loop. -/
def jsFilesOf (files : List String) : List String :=
  files.filter (fun f => extname f == ".js" || extname f == ".jsx")

/-- checkBestPractices.  The readFile argument models the composition of
path.join(projectPath, file) with fs.readFile for the fixed projectPath
of the call: some content on success, none when the read throws (the
source catch silently skips such files). -/
def checkBestPractices (files : List String) (techStack : TechStack)
    (readFile : String → Option String) : List QualityInsight :=
  let hasLockFile := files.any (fun f =>
    basename f == "package-lock.json" || basename f == "yarn.lock")
  let lockInsights :=
    if !hasLockFile && files.any (fun f => basename f == "package.json") then
      [⟨"best-practice", "low", "No lock file (package-lock.json or yarn.lock) found. Lock files help ensure consistent installations."⟩]
    else []
  let hasEnvConfig := files.any (fun f =>
    basename f == ".env" || basename f == ".env.example")
  let usesDotenv := techStack.tools.any (fun t => t.name == "dotenv")
  let envInsights :=
    if usesDotenv && !hasEnvConfig then
      [⟨"best-practice", "low", "You\x27re using dotenv but no .env or .env.example file was found. Consider adding an example file for documentation."⟩]
    else []
  let bigFileInsights := ((jsFilesOf files).take 10).flatMap (bigFileStep readFile)
  lockInsights ++ envInsights ++ bigFileInsights

/- ===== Structure summarizer: analyzeStructure
   (src/devpath-cli/src/services/analyzer.js lines 69-99, and the
   identical copy in src/src/services/aws-recommender.js) ===== -/

/-- Pushes a basename onto the group of its directory, appending a new
key when absent; this models `directories[dir].push(...)` on a plain
object with insertion-ordered keys. -/
def addToGroup : List (String × List String) → String → String →
    List (String × List String)
  | [], dir, base => [(dir, [base])]
  | (d, bs) :: rest, dir, base =>
      if d = dir then (d, bs ++ [base]) :: rest
      else (d, bs) :: addToGroup rest dir base

/-- The directories object of analyzeStructure: files grouped by
path.dirname in key insertion order, each group holding the pushed
path.basename values in push order. -/
def groupByDir (files : List String) : List (String × List String) :=
  files.foldl (fun g f => addToGroup g (dirname f) (basename f)) []

/-- Lexicographic order on character lists. -/
def charListLE : List Char → List Char → Bool
  | [], _ => true
  | _ :: _, [] => false
  | a :: as, b :: bs => if a = b then charListLE as bs else decide (a < b)

/-- Order used to model the default JavaScript sort on strings
(lexicographic; identical to the code-unit order on ASCII paths). -/
def strLE (a b : String) : Prop := charListLE a.data b.data = true

instance : DecidableRel strLE := fun a b =>
  instDecidableEqBool (charListLE a.data b.data) true

/-- Appends one rendered group: heading, then one line per file, then a
blank line. -/
def renderGroup (acc : String) (dir : String) (files : List String) : String :=
  let heading := if dir = "." then "Root directory:\n" else dir ++ "/:\n"
  (files.foldl (fun a f => a ++ "  - " ++ f ++ "\n") (acc ++ heading)) ++ "\n"

/-- analyzeStructure: renders groups in sorted key order with the files
of each group sorted. -/
def analyzeStructure (files : List String) : String :=
  let directories := groupByDir files
  let dirs := (directories.map Prod.fst).insertionSort strLE
  dirs.foldl
    (fun acc dir =>
      renderGroup acc dir (((directories.lookup dir).getD []).insertionSort strLE))
    ""

/- ===== Path resolver: convertPath
   (src/src/services/aws-recommender.js lines 476-515) ===== -/

/-- Test of the anchored regex for a Windows drive path: one ASCII
letter, a colon, a backslash. -/
def matchesDrivePattern (cs : List Char) : Bool :=
  match cs with
  | c0 :: c1 :: c2 :: _ => c0.isAlpha && c1 == ':' && c2 == '\\'
  | _ => false

/-- Test of the anchored regex for a WSL mount path /mnt/<letter>/ with a
lowercase letter. -/
def matchesMntPattern (cs : List Char) : Bool :=
  match cs with
  | '/' :: 'm' :: 'n' :: 't' :: '/' :: c5 :: c6 :: _ =>
      ('a' ≤ c5 && c5 ≤ 'z') && c6 == '/'
  | _ => false

/-- convertPath applied to the output of path.normalize: the source first
normalizes the input and then applies the two conversion branches to the
normalized string, so the function is stated on the already normalized
path.  isWsl is the cached result of checkIfWsl. -/
def convertPath (isWsl : Bool) (normalizedPath : String) : String :=
  let cs := normalizedPath.data
  if isWsl && matchesDrivePattern cs then
    let driveLetter := (cs.headD 'x').toLower
    let pathWithoutDrive :=
      String.mk ((cs.drop 2).map (fun c => if c == '\\' then '/' else c))
    "/mnt/" ++ String.mk [driveLetter] ++ pathWithoutDrive
  else if !isWsl && matchesMntPattern cs then
    let driveLetter := (cs.getD 5 'x').toUpper
    let pathWithoutDrive :=
      String.mk ((cs.drop 7).map (fun c => if c == '/' then '\\' else c))
    String.mk [driveLetter] ++ ":" ++ pathWithoutDrive
  else normalizedPath

/- ===== Directory scanner: scanDirectory
   (src/src/services/aws-recommender.js lines 524-564) ===== -/

/-- One entry of fs.readdir with withFileTypes; a directory entry carries
the node it names, so that symbolic-link cycles are representable. -/
inductive FSEntry where
  | file (name : String)
  | dir (name : String) (node : Nat)
deriving Repr, DecidableEq

/-- Filesystem shape: each node either lists its entries or fails to be
read (none models a readdir rejection, which the catch of the source
turns into an empty result). -/
def FileSystem := Nat → Option (List FSEntry)

/-- The four directory names skipped by the scanner. -/
def skipDirNames : List String := ["node_modules", "dist", "build", ".git"]

/-- Relative path of the accumulated name segments, joined with forward
slashes; this models path.relative(basePath, fullPath) followed by the
backslash replacement, for fullPath built by repeated path.join from
basePath. -/
def joinRel (segs : List String) : String := String.intercalate "/" segs

/-- scanDirectory with its depth guard; relSegs carries the directory
names between basePath and dirPath (empty at the top call, where basePath
is initialized to dirPath). -/
def scanDirectoryRec (g : FileSystem) (node : Nat) (maxDepth currentDepth : Nat)
    (relSegs : List String) : List String :=
  if _h : currentDepth > maxDepth then []
  else
    match g node with
    | none => []
    | some entries =>
      entries.foldl
        (fun files e =>
          match e with
          | .dir nm sub =>
            if nm ∈ skipDirNames then files
            else files ++ scanDirectoryRec g sub maxDepth (currentDepth + 1) (relSegs ++ [nm])
          | .file nm => files ++ [joinRel (relSegs ++ [nm])])
        []
termination_by maxDepth + 1 - currentDepth
decreasing_by omega

/-- The exported entry point scanDirectory(dirPath, maxDepth) with the
default currentDepth = 0 and basePath = dirPath. -/
def scanDirectory (g : FileSystem) (root : Nat) (maxDepth : Nat) : List String :=
  scanDirectoryRec g root maxDepth 0 []

/-- Fuel-indexed variant of the scanner, spending one unit of fuel per
nested call; it witnesses that the recursion depth of the source is
bounded by the depth budget. -/
def scanDirectoryFuel (g : FileSystem) :
    Nat → Nat → Nat → Nat → List String → List String
  | 0, _, _, _, _ => []
  | fuel + 1, node, maxDepth, currentDepth, relSegs =>
    if currentDepth > maxDepth then []
    else
      match g node with
      | none => []
      | some entries =>
        entries.foldl
          (fun files e =>
            match e with
            | .dir nm sub =>
              if nm ∈ skipDirNames then files
              else files ++ scanDirectoryFuel g fuel sub maxDepth (currentDepth + 1) (relSegs ++ [nm])
            | .file nm => files ++ [joinRel (relSegs ++ [nm])])
          []

/- ===== analyzeProject (src/src/services/aws-recommender.js 392-470) ===== -/

/-- Outcome of the fs.stat call of the directory check. -/
inductive StatResult where
  | stats (isDirectory : Bool)
  | enoent
  | otherErr (msg : String)
deriving Repr, DecidableEq

/-- The value resolved by analyzeProject. -/
structure AnalysisResult where
  structureText : String
  techStack : TechStack
  codeQuality : List QualityInsight
deriving Repr, DecidableEq

/-- Help text appended for ENOENT when checkIfWsl is true. -/
def wslHelpMsg : String :=
  "\n\nIf you\x27re trying to access a Windows path from WSL, use the format: /mnt/c/path/to/project instead of C:\\path\\to\\project"

/-- Help text appended for ENOENT when checkIfWsl is false. -/
def nonWslHelpMsg : String :=
  "\n\nMake sure the path exists and you have permission to access it."

/-- Inner try of analyzeProject, lines 406-424: the fs.stat call, the
isDirectory check whose throw is caught by the inner catch and rewrapped
through its non-ENOENT branch, and the two catch branches. -/
def statCheck (stat : String → StatResult) (isWsl : Bool)
    (projectPath : String) : Except String Unit :=
  match stat projectPath with
  | .stats true => .ok ()
  | .stats false =>
      .error ("Cannot access directory: " ++ projectPath ++
        ". Error: Path is not a directory: " ++ projectPath)
  | .enoent =>
      .error ("Cannot access directory: " ++ projectPath ++
        ". The directory does not exist." ++
        (if isWsl then wslHelpMsg else nonWslHelpMsg))
  | .otherErr m =>
      .error ("Cannot access directory: " ++ projectPath ++ ". Error: " ++ m)

/-- Depth of the scan call, options.depth || 3: zero is falsy in
JavaScript and also falls back to 3. -/
def depthOrDefault (depthOpt : Option Nat) : Nat :=
  match depthOpt with
  | some d => if d = 0 then 3 else d
  | none => 3

/-- Body of the try block of analyzeProject (lines 400-448) for a local
invocation, as a function of its environment: stat models fs.stat, scanF
the scanDirectory call (total, since scanDirectory catches its own read
errors), and the three stage functions model the analyzeStructure,
detectTechStack and analyzeCodeQuality calls of lines 433-442, any of
which may throw.  The error side carries the message of a thrown error. -/
def analyzeProjectTry
    (stat : String → StatResult) (isWsl : Bool)
    (scanF : String → Nat → List String)
    (structF : String → List String → Except String String)
    (techF : String → List String → Except String TechStack)
    (qualF : String → List String → TechStack → Except String (List QualityInsight))
    (normalizedInput : String) (depthOpt : Option Nat) :
    Except String AnalysisResult := do
  let projectPath := convertPath isWsl normalizedInput
  let _ ← statCheck stat isWsl projectPath
  let files := scanF projectPath (depthOrDefault depthOpt)
  let structureText ← structF projectPath files
  let techStack ← techF projectPath files
  let codeQuality ← qualF projectPath files techStack
  return ⟨structureText, techStack, codeQuality⟩

/-- The degraded result built by the outer catch (lines 453-468). -/
def degradedResult (m : String) : AnalysisResult :=
  ⟨"Error analyzing project structure.",
   ⟨[], [], []⟩,
   [⟨"error", "high", "Error analyzing project: " ++ m⟩]⟩

/-- analyzeProject for a local (non GitHub) invocation: everything after
path conversion sits in a try whose catch returns the degraded result
instead of rejecting; the promise is modelled as an Except that is an
error only when the invocation rejects. -/
def analyzeProject
    (stat : String → StatResult) (isWsl : Bool)
    (scanF : String → Nat → List String)
    (structF : String → List String → Except String String)
    (techF : String → List String → Except String TechStack)
    (qualF : String → List String → TechStack → Except String (List QualityInsight))
    (normalizedInput : String) (depthOpt : Option Nat) :
    Except String AnalysisResult :=
  match analyzeProjectTry stat isWsl scanF structF techF qualF normalizedInput depthOpt with
  | .ok r => .ok r
  | .error m => .ok (degradedResult m)

/- ===== Concrete instances used by witnesses and counterexamples ===== -/

/-- Extracts a file name from a directory entry. -/
def fileNameOf : FSEntry → Option String
  | .file nm => some nm
  | .dir _ _ => none

/-- Small concrete filesystem: the root lists a file, a normal
subdirectory and a node_modules subdirectory with a nested file. -/
def exampleFS : FileSystem := fun n =>
  if n = 0 then some [.file "a.js", .dir "sub" 1, .dir "node_modules" 2]
  else if n = 1 then some [.file "b.js"]
  else some [.file "evil.js"]

/-- Concrete filesystem whose root directory contains itself, as a
symbolic-link cycle would produce. -/
def cyclicFS : FileSystem := fun _ =>
  some [.dir "loop" 0, .file "x.js"]

/-- Stat environment in which every path is missing. -/
def statEnoent : String → StatResult := fun _ => .enoent

/-- Scan stage returning no files. -/
def scanNone : String → Nat → List String := fun _ _ => []

/-- Structure stage resolving with an empty summary. -/
def structOk : String → List String → Except String String := fun _ _ => .ok ""

/-- Tech-stack stage resolving with an empty stack. -/
def techOk : String → List String → Except String TechStack :=
  fun _ _ => .ok ⟨[], [], []⟩

/-- Quality stage resolving with no insights. -/
def qualOk : String → List String → TechStack → Except String (List QualityInsight) :=
  fun _ _ _ => .ok []

/-- Eleven JavaScript files. -/
def elevenJsFiles : List String :=
  ["f00.js", "f01.js", "f02.js", "f03.js", "f04.js", "f05.js", "f06.js",
   "f07.js", "f08.js", "f09.js", "f10.js"]

/-- Content whose newline split has exactly 400 pieces. -/
def content400 : String := String.mk (List.replicate 399 '\n')

/-- Reader giving every file the 400-line content. -/
def reader400 : String → Option String := fun _ => some content400

/-- The ordering demanded by the specification sentence on language
entries: count strictly descending, ties broken by extension ascending. -/
def specLangOrder (a b : LanguageEntry) : Prop :=
  b.count < a.count ∨ (a.count = b.count ∧ strLE a.extension b.extension)

instance : DecidableRel specLangOrder := fun a b => by
  unfold specLangOrder; exact inferInstance

/-- Names of a list of framework or tool entries. -/
def namesOf (l : List FrameworkEntry) : List String := l.map (fun e => e.name)

/-- Tagged pairs (directory, basename) listed by a group list. -/
def flattenGroups (gs : List (String × List String)) : List (String × String) :=
  gs.flatMap (fun p => p.2.map (fun b => (p.1, b)))

/-- Invariant carried through the pattern loops: the manifest-sourced
names stay present, version-less entries never collide with them, and
names stay pairwise distinct. -/
def PatternInv (base : List String) (l : List FrameworkEntry) : Prop :=
  base ⊆ namesOf l
  ∧ (∀ e ∈ l, e.version = none → e.name ∉ base)
  ∧ (namesOf l).Nodup

/- ===== Helper lemmas: scanner ===== -/

theorem foldl_branch_eq_flatMap (dirF : String → Nat → List String)
    (fileF : String → List String) :
    ∀ (l : List FSEntry) (init : List String),
      l.foldl
        (fun files e =>
          match e with
          | .dir nm sub => if nm ∈ skipDirNames then files else files ++ dirF nm sub
          | .file nm => files ++ fileF nm) init
      = init ++ l.flatMap
          (fun e =>
            match e with
            | .dir nm sub => if nm ∈ skipDirNames then [] else dirF nm sub
            | .file nm => fileF nm)
  | [], init => by simp
  | e :: l, init => by
    cases e with
    | dir nm sub =>
      by_cases hnm : nm ∈ skipDirNames <;>
        simp [hnm, foldl_branch_eq_flatMap dirF fileF l, List.append_assoc]
    | file nm =>
      simp [foldl_branch_eq_flatMap dirF fileF l, List.append_assoc]

theorem scanRec_guard (g : FileSystem) (node maxDepth currentDepth : Nat)
    (relSegs : List String) (h : currentDepth > maxDepth) :
    scanDirectoryRec g node maxDepth currentDepth relSegs = [] := by
  rw [scanDirectoryRec]
  simp [h]

theorem scanRec_some (g : FileSystem) (node maxDepth currentDepth : Nat)
    (relSegs : List String) (h : ¬ currentDepth > maxDepth)
    (es : List FSEntry) (hg : g node = some es) :
    scanDirectoryRec g node maxDepth currentDepth relSegs
      = es.flatMap
          (fun e =>
            match e with
            | .dir nm sub =>
              if nm ∈ skipDirNames then []
              else scanDirectoryRec g sub maxDepth (currentDepth + 1) (relSegs ++ [nm])
            | .file nm => [joinRel (relSegs ++ [nm])]) := by
  rw [scanDirectoryRec]
  simp only [h, dite_false]
  rw [hg]
  exact foldl_branch_eq_flatMap _ _ es []

theorem scanFuel_eq (g : FileSystem) :
    ∀ (fuel node maxDepth currentDepth : Nat) (relSegs : List String),
      maxDepth + 1 - currentDepth ≤ fuel →
      scanDirectoryFuel g fuel node maxDepth currentDepth relSegs
        = scanDirectoryRec g node maxDepth currentDepth relSegs := by
  intro fuel
  induction fuel with
  | zero =>
    intro node maxDepth currentDepth relSegs hb
    have h : currentDepth > maxDepth := by omega
    rw [scanRec_guard g node maxDepth currentDepth relSegs h]
    rfl
  | succ fuel ih =>
    intro node maxDepth currentDepth relSegs hb
    by_cases h : currentDepth > maxDepth
    · rw [scanRec_guard g node maxDepth currentDepth relSegs h]
      simp [scanDirectoryFuel, h]
    · cases hg : g node with
      | none =>
        rw [scanDirectoryRec]
        simp [scanDirectoryFuel, h, hg]
      | some es =>
        rw [scanRec_some g node maxDepth currentDepth relSegs h es hg]
        simp only [scanDirectoryFuel, if_neg h, hg]
        rw [foldl_branch_eq_flatMap _ _ es []]
        rw [List.nil_append]
        have harg :
            (fun e =>
              match e with
              | FSEntry.dir nm sub =>
                if nm ∈ skipDirNames then []
                else scanDirectoryFuel g fuel sub maxDepth (currentDepth + 1) (relSegs ++ [nm])
              | FSEntry.file nm => [joinRel (relSegs ++ [nm])])
            = (fun e =>
              match e with
              | FSEntry.dir nm sub =>
                if nm ∈ skipDirNames then []
                else scanDirectoryRec g sub maxDepth (currentDepth + 1) (relSegs ++ [nm])
              | FSEntry.file nm => [joinRel (relSegs ++ [nm])]) := by
          funext e
          cases e with
          | dir nm sub =>
            by_cases hnm : nm ∈ skipDirNames
            · simp [hnm]
            · simp only [if_neg hnm]
              exact ih sub maxDepth (currentDepth + 1) (relSegs ++ [nm]) (by omega)
          | file nm => rfl
        rw [harg]

theorem scanDirectory_eq_fuel (g : FileSystem) (root maxDepth : Nat) :
    scanDirectory g root maxDepth
      = scanDirectoryFuel g (maxDepth + 1) root maxDepth 0 [] :=
  (scanFuel_eq g (maxDepth + 1) root maxDepth 0 [] (by omega)).symm

theorem scanFuel_decomp (g : FileSystem) :
    ∀ (fuel node maxDepth currentDepth : Nat) (relSegs : List String) (p : String),
      p ∈ scanDirectoryFuel g fuel node maxDepth currentDepth relSegs →
      ∃ dsegs fname, p = joinRel (relSegs ++ (dsegs ++ [fname]))
        ∧ ∀ s ∈ dsegs, s ∉ skipDirNames := by
  intro fuel
  induction fuel with
  | zero => intro node maxDepth currentDepth relSegs p hp; simp [scanDirectoryFuel] at hp
  | succ fuel ih =>
    intro node maxDepth currentDepth relSegs p hp
    by_cases h : currentDepth > maxDepth
    · simp [scanDirectoryFuel, h] at hp
    · cases hg : g node with
      | none => simp [scanDirectoryFuel, h, hg] at hp
      | some es =>
        simp only [scanDirectoryFuel, if_neg h, hg] at hp
        rw [foldl_branch_eq_flatMap _ _ es [], List.nil_append] at hp
        rcases List.mem_flatMap.mp hp with ⟨e, _he, hpe⟩
        cases e with
        | file nm =>
          refine ⟨[], nm, ?_, by simp⟩
          have : p = joinRel (relSegs ++ [nm]) := by simpa using hpe
          simpa using this
        | dir nm sub =>
          by_cases hnm : nm ∈ skipDirNames
          · simp [hnm] at hpe
          · simp only [if_neg hnm] at hpe
            rcases ih sub maxDepth (currentDepth + 1) (relSegs ++ [nm]) p hpe with
              ⟨dsegs, fname, hpj, hclean⟩
            refine ⟨nm :: dsegs, fname, ?_, ?_⟩
            · rw [hpj]; simp [List.append_assoc]
            · intro s hs
              rcases List.mem_cons.mp hs with rfl | hs'
              · exact hnm
              · exact hclean s hs'

theorem flatMap_fileNameOf (es : List FSEntry) :
    (es.flatMap fun e =>
      match e with
      | FSEntry.dir _ _ => ([] : List String)
      | FSEntry.file nm => [nm]) = es.filterMap fileNameOf := by
  induction es with
  | nil => rfl
  | cons e rest ih => cases e <;> simp [fileNameOf, ih]

/- ===== Claim C5 ===== -/

/-- C5: scan with maxDepth = 0 returns exactly the files directly
contained in the root directory, in listing order, and nothing from any
subdirectory: the recursion into each subdirectory happens at depth 1,
whose guard returns the empty list. -/
theorem scanDirectory_depth_zero_only_root (g : FileSystem) (root : Nat) :
    scanDirectory g root 0
      = match g root with
        | none => []
        | some es => es.filterMap fileNameOf := by
  rw [scanDirectory]
  cases hg : g root with
  | none =>
    rw [scanDirectoryRec]
    simp [hg]
  | some es =>
    rw [scanRec_some g root 0 0 [] (by omega) es hg]
    have harg :
        (fun e =>
          match e with
          | FSEntry.dir nm sub =>
            if nm ∈ skipDirNames then []
            else scanDirectoryRec g sub 0 (0 + 1) ([] ++ [nm])
          | FSEntry.file nm => [joinRel ([] ++ [nm])])
        = (fun e =>
          match e with
          | FSEntry.dir _ _ => ([] : List String)
          | FSEntry.file nm => [nm]) := by
      funext e
      cases e with
      | dir nm sub =>
        by_cases hnm : nm ∈ skipDirNames
        · simp [hnm]
        · simp only [if_neg hnm]
          exact scanRec_guard g sub 0 (0 + 1) ([] ++ [nm]) (by omega)
      | file nm => rfl
    rw [harg]
    exact flatMap_fileNameOf es

/- ===== Claim C9 ===== -/

/-- C9: the scanner terminates on every directory structure, including
link cycles, because its recursion is strictly depth-bounded: a call with
currentDepth beyond maxDepth returns immediately, and a fuel budget of
maxDepth + 1 - currentDepth nested calls always suffices to compute the
result, for every filesystem graph and with no visited-set tracking. -/
theorem scanDirectory_depth_bounded (g : FileSystem)
    (fuel node maxDepth currentDepth : Nat) (relSegs : List String) :
    (currentDepth > maxDepth →
      scanDirectoryRec g node maxDepth currentDepth relSegs = [])
    ∧ (maxDepth + 1 - currentDepth ≤ fuel →
      scanDirectoryFuel g fuel node maxDepth currentDepth relSegs
        = scanDirectoryRec g node maxDepth currentDepth relSegs) :=
  ⟨scanRec_guard g node maxDepth currentDepth relSegs,
   scanFuel_eq g fuel node maxDepth currentDepth relSegs⟩

/-- Witness for C9 on the cyclic filesystem: the guard fires at depth
3 > 2, and three units of fuel compute the bounded scan from depth 0. -/
theorem scanDirectory_depth_bounded_witness :
    scanDirectoryRec cyclicFS 0 2 3 [] = []
    ∧ scanDirectoryFuel cyclicFS 3 0 2 0 []
        = scanDirectoryRec cyclicFS 0 2 0 [] :=
  ⟨(scanDirectory_depth_bounded cyclicFS 3 0 2 3 []).1 (by omega),
   (scanDirectory_depth_bounded cyclicFS 3 0 2 0 []).2 (by omega)⟩

/- ===== Claim C4 ===== -/

/-- C4: every path the scanner returns decomposes into directory names
that all avoid the skip list, so no returned file lies below a directory
named node_modules, dist, build or .git at any depth; a skipped directory
contributes nothing and raises nothing (the scanner is total). -/
theorem scanDirectory_excludes_skip_dirs (g : FileSystem)
    (root maxDepth : Nat) (p : String)
    (hp : p ∈ scanDirectory g root maxDepth) :
    ∃ dsegs fname, p = joinRel (dsegs ++ [fname])
      ∧ ∀ s ∈ dsegs, s ∉ skipDirNames := by
  rw [scanDirectory_eq_fuel] at hp
  rcases scanFuel_decomp g (maxDepth + 1) root maxDepth 0 [] p hp with
    ⟨dsegs, fname, hpj, hclean⟩
  exact ⟨dsegs, fname, by simpa using hpj, hclean⟩

/-- Witness for C4 at the example filesystem: the path of the file in
the ordinary subdirectory is returned and decomposes cleanly. -/
theorem scanDirectory_excludes_skip_dirs_witness :
    ∃ dsegs fname, "sub/b.js" = joinRel (dsegs ++ [fname])
      ∧ ∀ s ∈ dsegs, s ∉ skipDirNames :=
  scanDirectory_excludes_skip_dirs exampleFS 0 3 "sub/b.js"
    (by rw [scanDirectory_eq_fuel]; decide)

/- ===== Claim C7 ===== -/

/-- Counterexample for C7: on a drive-letter host the mount-style input
/mnt/c/users is rewritten to C:users, not to the claimed C:\users with a
backslash after the colon, because the source drops the seventh character
(the slash after the drive letter) and inserts no separator. -/
theorem convertPath_mnt_missing_backslash :
    convertPath false "/mnt/c/users" = "C:users"
    ∧ convertPath false "/mnt/c/users" ≠ "C:\\users" := by
  constructor
  · decide
  · decide

/-- C7 as amended: the drive-to-mount direction produces
/mnt/(lowercased letter)/(backslashes replaced); the mount-to-drive
direction produces the uppercased letter, a colon, and the remainder
after /mnt/(letter)/ with slashes replaced, with no backslash inserted
after the colon; inputs matching neither branch pass through unchanged. -/
theorem convertPath_branches (np : String) :
    (∀ l rest, l.isAlpha = true → np.data = l :: ':' :: '\\' :: rest →
      convertPath true np
        = String.mk ('/' :: 'm' :: 'n' :: 't' :: '/' :: l.toLower :: '/' ::
            rest.map (fun c => if c == '\\' then '/' else c)))
    ∧ (∀ l rest, ('a' ≤ l ∧ l ≤ 'z') →
        np.data = '/' :: 'm' :: 'n' :: 't' :: '/' :: l :: '/' :: rest →
        convertPath false np
          = String.mk (l.toUpper :: ':' ::
              rest.map (fun c => if c == '/' then '\\' else c)))
    ∧ (matchesDrivePattern np.data = false → convertPath true np = np)
    ∧ (matchesMntPattern np.data = false → convertPath false np = np) := by
  refine ⟨?_, ?_, ?_, ?_⟩
  · intro l rest hl hnp
    simp only [convertPath, hnp, matchesDrivePattern, hl, Bool.true_and,
      Bool.and_true, if_pos]
    rfl
  · intro l rest hl hnp
    have h5 : ('a' ≤ l && l ≤ 'z') = true := by
      simp only [Bool.and_eq_true, decide_eq_true_eq]
      exact hl
    simp only [convertPath, hnp, matchesMntPattern, matchesDrivePattern, h5]
    rfl
  · intro hm
    simp [convertPath, hm]
  · intro hm
    simp [convertPath, hm, matchesDrivePattern]

/-- Witness for C7 at concrete paths in each branch. -/
theorem convertPath_branches_witness :
    convertPath true "C:\\Users\\dev" = "/mnt/c/Users/dev"
    ∧ convertPath false "/mnt/d/proj" = "D:proj"
    ∧ convertPath true "plain/path" = "plain/path"
    ∧ convertPath false "plain/path" = "plain/path" :=
  ⟨(convertPath_branches "C:\\Users\\dev").1 'C'
      ['U', 's', 'e', 'r', 's', '\\', 'd', 'e', 'v'] (by decide) (by decide),
   (convertPath_branches "/mnt/d/proj").2.1 'd' ['p', 'r', 'o', 'j']
      (by decide) (by decide),
   (convertPath_branches "plain/path").2.2.1 (by decide),
   (convertPath_branches "plain/path").2.2.2 (by decide)⟩

/- ===== Claim C6 ===== -/

/-- Counterexample for C6: with a missing input path the invocation does
not fail; it resolves with the degraded result, and on a non-WSL host the
message carries no opposite-convention path-format guidance, only the
generic help text. -/
theorem analyzeProject_missing_path_resolves :
    analyzeProject statEnoent false scanNone structOk techOk qualOk
        "/some/missing" none
      = .ok (degradedResult
          ("Cannot access directory: /some/missing. The directory does not exist."
            ++ nonWslHelpMsg)) := by
  rfl

/-- C6 as amended: when the resolved path is missing or not a directory,
an internal error is thrown whose message contains the literal resolved
path, with the opposite-convention guidance only on a WSL host for the
missing-path case, and the outer catch resolves the invocation with the
degraded result instead of propagating the error. -/
theorem analyzeProject_missing_path_degrades
    (stat : String → StatResult) (isWsl : Bool)
    (scanF : String → Nat → List String)
    (structF : String → List String → Except String String)
    (techF : String → List String → Except String TechStack)
    (qualF : String → List String → TechStack → Except String (List QualityInsight))
    (input : String) (depthOpt : Option Nat) :
    (stat (convertPath isWsl input) = .enoent →
      analyzeProject stat isWsl scanF structF techF qualF input depthOpt
        = .ok (degradedResult
            ("Cannot access directory: " ++ convertPath isWsl input ++
              ". The directory does not exist." ++
              (if isWsl then wslHelpMsg else nonWslHelpMsg))))
    ∧ (stat (convertPath isWsl input) = .stats false →
      analyzeProject stat isWsl scanF structF techF qualF input depthOpt
        = .ok (degradedResult
            ("Cannot access directory: " ++ convertPath isWsl input ++
              ". Error: Path is not a directory: " ++ convertPath isWsl input)))
    ∧ (∀ m, stat (convertPath isWsl input) = .otherErr m →
      analyzeProject stat isWsl scanF structF techF qualF input depthOpt
        = .ok (degradedResult
            ("Cannot access directory: " ++ convertPath isWsl input ++
              ". Error: " ++ m))) := by
  refine ⟨?_, ?_, ?_⟩
  · intro h
    simp only [analyzeProject, analyzeProjectTry, statCheck, h]
    rfl
  · intro h
    simp only [analyzeProject, analyzeProjectTry, statCheck, h]
    rfl
  · intro m h
    simp only [analyzeProject, analyzeProjectTry, statCheck, h]
    rfl

/-- Witness for C6 at a concrete missing path on a non-WSL host. -/
theorem analyzeProject_missing_path_degrades_witness :
    analyzeProject statEnoent false scanNone structOk techOk qualOk
        "/another/missing" none
      = .ok (degradedResult
          ("Cannot access directory: " ++ convertPath false "/another/missing" ++
            ". The directory does not exist." ++
            (if false then wslHelpMsg else nonWslHelpMsg))) :=
  (analyzeProject_missing_path_degrades statEnoent false scanNone structOk
    techOk qualOk "/another/missing" none).1 rfl

/- ===== Claim C10 ===== -/

/-- C10: a local invocation of analyzeProject never rejects; whenever the
body of the try throws after path conversion, the invocation resolves
with the degraded result whose structure text, empty tech stack and
single high-severity error insight are exactly as the catch builds them. -/
theorem analyzeProject_never_rejects
    (stat : String → StatResult) (isWsl : Bool)
    (scanF : String → Nat → List String)
    (structF : String → List String → Except String String)
    (techF : String → List String → Except String TechStack)
    (qualF : String → List String → TechStack → Except String (List QualityInsight))
    (input : String) (depthOpt : Option Nat) :
    (∃ r, analyzeProject stat isWsl scanF structF techF qualF input depthOpt
      = .ok r)
    ∧ ∀ m, analyzeProjectTry stat isWsl scanF structF techF qualF input depthOpt
        = .error m →
      analyzeProject stat isWsl scanF structF techF qualF input depthOpt
        = .ok ⟨"Error analyzing project structure.", ⟨[], [], []⟩,
            [⟨"error", "high", "Error analyzing project: " ++ m⟩]⟩ := by
  constructor
  · unfold analyzeProject
    cases h : analyzeProjectTry stat isWsl scanF structF techF qualF input depthOpt with
    | ok r => exact ⟨r, rfl⟩
    | error m => exact ⟨degradedResult m, rfl⟩
  · intro m hm
    unfold analyzeProject
    rw [hm]
    rfl

/-- Witness for C10 at a concrete throwing stat stage on a WSL host. -/
theorem analyzeProject_never_rejects_witness :
    analyzeProject statEnoent true scanNone structOk techOk qualOk "/w" none
      = .ok ⟨"Error analyzing project structure.", ⟨[], [], []⟩,
          [⟨"error", "high", "Error analyzing project: " ++
            ("Cannot access directory: /w. The directory does not exist."
              ++ wslHelpMsg)⟩]⟩ :=
  (analyzeProject_never_rejects statEnoent true scanNone structOk techOk
    qualOk "/w" none).2
    ("Cannot access directory: /w. The directory does not exist." ++ wslHelpMsg)
    (by rfl)

/- ===== Helper lemmas: frameworks and tools ===== -/

theorem any_name_eq_iff (l : List FrameworkEntry) (nm : String) :
    l.any (fun e => e.name == nm) = true ↔ nm ∈ namesOf l := by
  simp only [namesOf, List.any_eq_true, beq_iff_eq, List.mem_map]

theorem addIfAbsent_false (l : List FrameworkEntry) (nm : String) :
    addIfAbsent l false nm = l := by
  simp [addIfAbsent]

theorem addIfAbsent_namesOf_nodup (l : List FrameworkEntry) (hit : Bool)
    (nm : String) (h : (namesOf l).Nodup) :
    (namesOf (addIfAbsent l hit nm)).Nodup := by
  unfold addIfAbsent
  split
  · rename_i hcond
    have hnm : nm ∉ namesOf l := by
      intro hmem
      rw [(any_name_eq_iff l nm).mpr hmem] at hcond
      simp at hcond
    simp only [namesOf, List.map_append, List.map_cons, List.map_nil]
    exact List.Nodup.append h (List.nodup_singleton nm)
      (by
        intro a ha hb
        rcases List.mem_singleton.mp hb with rfl
        exact hnm ha)
  · exact h

theorem addIfAbsent_names_subset (l : List FrameworkEntry) (hit : Bool)
    (nm : String) : namesOf l ⊆ namesOf (addIfAbsent l hit nm) := by
  unfold addIfAbsent
  split
  · simp [namesOf]
  · exact fun _ h => h

theorem addIfAbsent_version_inv (base : List String)
    (l : List FrameworkEntry) (hit : Bool) (nm : String)
    (hsub : base ⊆ namesOf l)
    (hinv : ∀ e ∈ l, e.version = none → e.name ∉ base) :
    ∀ e ∈ addIfAbsent l hit nm, e.version = none → e.name ∉ base := by
  unfold addIfAbsent
  split
  · rename_i hcond
    intro e he hv
    rcases List.mem_append.mp he with hl | hone
    · exact hinv e hl hv
    · rcases List.mem_singleton.mp hone with rfl
      have hnm : nm ∉ namesOf l := by
        intro hmem
        rw [(any_name_eq_iff l nm).mpr hmem] at hcond
        simp at hcond
      exact fun hb => hnm (hsub hb)
  · exact hinv

theorem addIfAbsent_inv (base : List String) (l : List FrameworkEntry)
    (hit : Bool) (nm : String) (h : PatternInv base l) :
    PatternInv base (addIfAbsent l hit nm) :=
  ⟨fun _ ha => addIfAbsent_names_subset l hit nm (h.1 ha),
   addIfAbsent_version_inv base l hit nm h.1 h.2.1,
   addIfAbsent_namesOf_nodup l hit nm h.2.2⟩

theorem foldl_addIfAbsent_inv (base : List String)
    (hitF : String × String → Bool) :
    ∀ (pats : List (String × String)) (l : List FrameworkEntry),
      PatternInv base l →
      PatternInv base
        (pats.foldl (fun acc pr => addIfAbsent acc (hitF pr) pr.2) l)
  | [], _, h => h
  | pr :: pats, l, h =>
    foldl_addIfAbsent_inv base hitF pats (addIfAbsent l (hitF pr) pr.2)
      (addIfAbsent_inv base l (hitF pr) pr.2 h)

theorem firstTruthyVersion_isSome (pj : Manifest) (deps : List String)
    (h : deps.any (depTruthy pj) = true) :
    (firstTruthyVersion pj deps).isSome = true := by
  rcases List.any_eq_true.mp h with ⟨d, hd, hdt⟩
  unfold firstTruthyVersion
  have hv : ∃ v, (match allDepsLookup pj d with
      | some v => if v = "" then none else some v
      | none => none) = some v := by
    unfold depTruthy at hdt
    cases hl : allDepsLookup pj d with
    | none => rw [hl] at hdt; cases hdt
    | some v =>
      rw [hl] at hdt
      refine ⟨v, ?_⟩
      simp only [hl]
      rw [if_neg (by simpa using hdt)]
  rcases hv with ⟨v, hv⟩
  have hmem : v ∈ deps.filterMap (fun d =>
      match allDepsLookup pj d with
      | some v => if v = "" then none else some v
      | none => none) := List.mem_filterMap.mpr ⟨d, hd, hv⟩
  cases hl : deps.filterMap (fun d =>
      match allDepsLookup pj d with
      | some v => if v = "" then none else some v
      | none => none) with
  | nil => rw [hl] at hmem; cases hmem
  | cons a as => rfl

theorem rulesEntries_version_isSome (pj : Manifest)
    (rules : List (String × List String)) :
    ∀ e ∈ rulesEntries pj rules, e.version.isSome = true := by
  intro e he
  rcases List.mem_filterMap.mp he with ⟨rule, _hr, hsome⟩
  by_cases hc : rule.2.any (depTruthy pj) = true
  · rw [rulesEntries] at he
    simp only [if_pos hc] at hsome
    cases hsome
    exact firstTruthyVersion_isSome pj rule.2 hc
  · simp only [if_neg hc] at hsome
    cases hsome

theorem rulesEntries_names_sublist (pj : Manifest) :
    ∀ (rules : List (String × List String)),
      List.Sublist (namesOf (rulesEntries pj rules)) (rules.map Prod.fst)
  | [] => List.Sublist.refl []
  | rule :: rules => by
    by_cases hc : rule.2.any (depTruthy pj) = true
    · have hstep : rulesEntries pj (rule :: rules)
          = ⟨rule.1, firstTruthyVersion pj rule.2⟩ :: rulesEntries pj rules := by
        unfold rulesEntries
        rw [List.filterMap_cons, if_pos hc]
      rw [hstep]
      simp only [namesOf, List.map_cons]
      exact List.Sublist.cons₂ rule.1 (rulesEntries_names_sublist pj rules)
    · have hstep : rulesEntries pj (rule :: rules) = rulesEntries pj rules := by
        unfold rulesEntries
        rw [List.filterMap_cons, if_neg hc]
      rw [hstep]
      exact (rulesEntries_names_sublist pj rules).cons rule.1

theorem addIfAbsent_filter_name (l : List FrameworkEntry) (hit : Bool)
    (nm t : String) (h : nm ≠ t) :
    (addIfAbsent l hit nm).filter (fun e => e.name == t)
      = l.filter (fun e => e.name == t) := by
  unfold addIfAbsent
  split
  · rw [List.filter_append]
    have : ([(⟨nm, none⟩ : FrameworkEntry)].filter (fun e => e.name == t)) = [] := by
      simp [h]
    rw [this, List.append_nil]
  · rfl

theorem foldl_addIfAbsent_filter_name (hitF : String × String → Bool) (t : String) :
    ∀ (pats : List (String × String)) (l : List FrameworkEntry),
      (∀ pr ∈ pats, pr.2 ≠ t) →
      ((pats.foldl (fun acc pr => addIfAbsent acc (hitF pr) pr.2) l).filter
          (fun e => e.name == t))
        = l.filter (fun e => e.name == t)
  | [], _, _ => rfl
  | pr :: pats, l, h => by
    rw [List.foldl_cons]
    rw [foldl_addIfAbsent_filter_name hitF t pats
      (addIfAbsent l (hitF pr) pr.2) (fun q hq => h q (List.mem_cons_of_mem pr hq))]
    exact addIfAbsent_filter_name l (hitF pr) pr.2 t (h pr (List.mem_cons_self pr pats))

/- ===== Claim C2 ===== -/

/-- C2: in detectFrameworks and detectTools a pattern-sourced entry
(recognizable by its absent version, which only the manifest step fills)
is only ever emitted for a display name that the manifest step did not
emit, names are pairwise distinct in the output, and for the manifest
with the react dependency and a file list with no .jsx or .tsx file the
output carries exactly one React entry, with the manifest version. -/
theorem detect_pattern_defers_to_manifest (files : List String) (pj : Manifest) :
    (namesOf (detectFrameworks files (some pj))).Nodup
    ∧ (∀ e ∈ detectFrameworks files (some pj), e.version = none →
        e.name ∉ namesOf (rulesEntries pj frameworkRules))
    ∧ (namesOf (detectTools files (some pj))).Nodup
    ∧ (∀ e ∈ detectTools files (some pj), e.version = none →
        e.name ∉ namesOf (rulesEntries pj toolRules))
    ∧ (files.any (fun f => endsWithStr f ".jsx" || endsWithStr f ".tsx") = false →
        pj = ⟨[("react", "^18.0.0")], []⟩ →
        (detectFrameworks files (some pj)).filter (fun e => e.name == "React")
          = [⟨"React", some "^18.0.0"⟩]) := by
  have hinit : ∀ (rules : List (String × List String)),
      (rules.map Prod.fst).Nodup →
      PatternInv (namesOf (rulesEntries pj rules)) (rulesEntries pj rules) := by
    intro rules hnd
    refine ⟨fun a ha => ha, ?_, ?_⟩
    · intro e he hv
      have := rulesEntries_version_isSome pj rules e he
      rw [hv] at this
      cases this
    · exact List.Nodup.sublist (rulesEntries_names_sublist pj rules) hnd
  have hfw : PatternInv (namesOf (rulesEntries pj frameworkRules))
      (detectFrameworks files (some pj)) := by
    unfold detectFrameworks
    exact addIfAbsent_inv _ _ _ _
      (foldl_addIfAbsent_inv _ _ filePatternsFrameworks _
        (hinit frameworkRules (by decide)))
  have htl : PatternInv (namesOf (rulesEntries pj toolRules))
      (detectTools files (some pj)) := by
    unfold detectTools
    exact foldl_addIfAbsent_inv _ _ filePatternsTools _
      (hinit toolRules (by decide))
  refine ⟨hfw.2.2, hfw.2.1, htl.2.2, htl.2.1, ?_⟩
  intro hjsx hpj
  subst hpj
  unfold detectFrameworks
  rw [hjsx, addIfAbsent_false]
  rw [foldl_addIfAbsent_filter_name _ "React" filePatternsFrameworks _ (by decide)]
  decide

/-- Witness for C2 at a concrete file list and manifest. -/
theorem detect_pattern_defers_to_manifest_witness :
    (detectFrameworks ["index.js", "angular.json"]
        (some ⟨[("react", "^18.0.0")], []⟩)).filter (fun e => e.name == "React")
      = [⟨"React", some "^18.0.0"⟩] :=
  (detect_pattern_defers_to_manifest ["index.js", "angular.json"]
    ⟨[("react", "^18.0.0")], []⟩).2.2.2.2 (by decide) rfl

/- ===== Helper lemmas: quality heuristics ===== -/

theorem bigFileStep_medium (r : String → Option String) (f : String) :
    ∀ i ∈ bigFileStep r f, i.severity == "medium" := by
  intro i hi
  unfold bigFileStep at hi
  cases hr : r f with
  | none => rw [hr] at hi; cases hi
  | some content =>
    rw [hr] at hi
    simp only at hi
    by_cases hlen : (splitLines content).length > 300
    · rw [if_pos hlen] at hi
      rcases List.mem_singleton.mp hi with rfl
      rfl
    · rw [if_neg hlen] at hi
      cases hi

theorem flatMap_congr_mem {α β : Type} {f g : α → List β} :
    ∀ {l : List α}, (∀ a ∈ l, f a = g a) → l.flatMap f = l.flatMap g
  | [], _ => rfl
  | a :: l, h => by
    rw [List.flatMap_cons, List.flatMap_cons,
      h a (List.mem_cons_self a l),
      flatMap_congr_mem (fun b hb => h b (List.mem_cons_of_mem a hb))]

theorem filter_medium_of_low_list (c : Bool) (i : QualityInsight)
    (h : i.severity = "low") :
    ((if c = true then [i] else []).filter (fun j => j.severity == "medium")) = [] := by
  cases c
  · rfl
  · simp [h]

/- ===== Claim C3 ===== -/

/-- C3: the oversized-file rule of checkBestPractices inspects only the
first ten files with a .js or .jsx extension, appending one
medium-severity insight per read file whose newline split exceeds 300
pieces and skipping unreadable files; the medium-severity insights of
checkBestPractices are exactly these, the result never depends on the
reader beyond those ten files, and the eleven 400-line JavaScript files
produce exactly ten medium-severity insights. -/
theorem checkBestPractices_line_rule_cap (files : List String)
    (ts : TechStack) (r1 r2 : String → Option String) :
    ((checkBestPractices files ts r1).filter (fun i => i.severity == "medium")
      = ((jsFilesOf files).take 10).flatMap (bigFileStep r1))
    ∧ ((∀ f ∈ (jsFilesOf files).take 10, r1 f = r2 f) →
        checkBestPractices files ts r1 = checkBestPractices files ts r2)
    ∧ ((checkBestPractices elevenJsFiles ⟨[], [], []⟩ reader400).filter
          (fun i => i.severity == "medium")).length = 10
    ∧ (jsFilesOf elevenJsFiles).length = 11 := by
  refine ⟨?_, ?_, ?_, ?_⟩
  · unfold checkBestPractices
    simp only
    rw [List.filter_append, List.filter_append]
    rw [filter_medium_of_low_list _ _ rfl, filter_medium_of_low_list _ _ rfl]
    rw [List.nil_append, List.nil_append]
    apply List.filter_eq_self.mpr
    intro i hi
    rcases List.mem_flatMap.mp hi with ⟨f, _hf, hif⟩
    exact bigFileStep_medium r1 f i hif
  · intro hagree
    unfold checkBestPractices
    simp only
    have : ((jsFilesOf files).take 10).flatMap (bigFileStep r1)
        = ((jsFilesOf files).take 10).flatMap (bigFileStep r2) := by
      apply flatMap_congr_mem
      intro f hf
      unfold bigFileStep
      rw [hagree f hf]
    rw [this]
  · decide
  · decide

/-- Witness for C3: changing the reader at the eleventh JavaScript file
only does not change the result. -/
theorem checkBestPractices_line_rule_cap_witness :
    checkBestPractices elevenJsFiles ⟨[], [], []⟩ reader400
      = checkBestPractices elevenJsFiles ⟨[], [], []⟩
          (fun f => if f == "f10.js" then none else reader400 f) :=
  (checkBestPractices_line_rule_cap elevenJsFiles ⟨[], [], []⟩ reader400
    (fun f => if f == "f10.js" then none else reader400 f)).2.1 (by decide)

/- ===== Helper lemmas: language histogram ===== -/

theorem bumpExt_keys (e : String) :
    ∀ (acc : List (String × Nat)),
      (bumpExt acc e).map Prod.fst
        = if e ∈ acc.map Prod.fst then acc.map Prod.fst
          else acc.map Prod.fst ++ [e]
  | [] => by simp [bumpExt]
  | (k, n) :: rest => by
    by_cases hk : k = e
    · subst hk
      simp [bumpExt]
    · have hke : ¬ e = k := fun h => hk h.symm
      simp only [bumpExt, if_neg hk, List.map_cons]
      rw [bumpExt_keys e rest]
      by_cases hmem : e ∈ rest.map Prod.fst
      · simp [hmem, hke]
      · simp [hmem, hke]

theorem bumpExt_lookup_self (e : String) :
    ∀ (acc : List (String × Nat)),
      (bumpExt acc e).lookup e = some (((acc.lookup e).getD 0) + 1)
  | [] => by simp [bumpExt, List.lookup]
  | (k, n) :: rest => by
    by_cases hk : k = e
    · subst hk
      simp [bumpExt, List.lookup]
    · have hke : (e == k) = false := by
        simp only [beq_eq_false_iff_ne, ne_eq]
        exact fun h => hk h.symm
      simp only [bumpExt, if_neg hk, List.lookup, hke]
      exact bumpExt_lookup_self e rest

theorem bumpExt_lookup_other (e e' : String) (hne : e' ≠ e) :
    ∀ (acc : List (String × Nat)),
      (bumpExt acc e).lookup e' = acc.lookup e'
  | [] => by
    have : (e' == e) = false := by simpa [beq_eq_false_iff_ne] using hne
    simp [bumpExt, List.lookup, this]
  | (k, n) :: rest => by
    by_cases hk : k = e
    · subst hk
      have : (e' == k) = false := by simpa [beq_eq_false_iff_ne] using hne
      simp [bumpExt, List.lookup, this]
    · simp only [bumpExt, if_neg hk, List.lookup]
      cases he : e' == k
      · simp only []
        exact bumpExt_lookup_other e e' hne rest
      · rfl

theorem countFold_lookup (ext : String) (hne : ext ≠ "") :
    ∀ (files : List String) (acc : List (String × Nat)),
      (((files.foldl (fun acc f =>
          let e := toLowerStr (extname f)
          if e = "" then acc else bumpExt acc e) acc).lookup ext).getD 0)
        = ((acc.lookup ext).getD 0)
          + (files.filter (fun f => toLowerStr (extname f) == ext)).length
  | [], acc => by simp
  | f :: files, acc => by
    rw [List.foldl_cons, List.filter_cons]
    by_cases he : toLowerStr (extname f) = ""
    · have hno : (toLowerStr (extname f) == ext) = false := by
        rw [he]
        simpa [beq_eq_false_iff_ne] using fun h => hne h.symm
      rw [hno]
      simp only [he, if_pos, cond_false]
      exact countFold_lookup ext hne files acc
    · simp only [if_neg he]
      by_cases heq : toLowerStr (extname f) = ext
      · have hyes : (toLowerStr (extname f) == ext) = true := by
          simpa using heq
        rw [hyes, if_pos rfl]
        rw [countFold_lookup ext hne files (bumpExt acc (toLowerStr (extname f)))]
        rw [heq, bumpExt_lookup_self ext acc]
        simp only [Option.getD_some, List.length_cons]
        omega
      · have hno : (toLowerStr (extname f) == ext) = false := by
          simpa [beq_eq_false_iff_ne] using heq
        rw [hno, if_neg (by decide)]
        rw [countFold_lookup ext hne files (bumpExt acc (toLowerStr (extname f)))]
        rw [bumpExt_lookup_other (toLowerStr (extname f)) ext
          (fun h => heq h.symm) acc]

theorem countFold_keys_nodup :
    ∀ (files : List String) (acc : List (String × Nat)),
      (acc.map Prod.fst).Nodup →
      (((files.foldl (fun acc f =>
          let e := toLowerStr (extname f)
          if e = "" then acc else bumpExt acc e) acc)).map Prod.fst).Nodup
  | [], _, h => h
  | f :: files, acc, h => by
    rw [List.foldl_cons]
    by_cases he : toLowerStr (extname f) = ""
    · simp only [he, if_pos]
      exact countFold_keys_nodup files acc h
    · simp only [if_neg he]
      apply countFold_keys_nodup files
      rw [bumpExt_keys (toLowerStr (extname f)) acc]
      by_cases hmem : toLowerStr (extname f) ∈ acc.map Prod.fst
      · rw [if_pos hmem]
        exact h
      · rw [if_neg hmem]
        exact List.Nodup.append h (List.nodup_singleton _)
          (by
            intro a ha hb
            rcases List.mem_singleton.mp hb with rfl
            exact hmem ha)

theorem countFold_keys_mem (ext : String) :
    ∀ (files : List String) (acc : List (String × Nat)),
      (ext ∈ ((files.foldl (fun acc f =>
          let e := toLowerStr (extname f)
          if e = "" then acc else bumpExt acc e) acc)).map Prod.fst
        ↔ ext ∈ acc.map Prod.fst
          ∨ (ext ≠ "" ∧ ∃ f ∈ files, toLowerStr (extname f) = ext))
  | [], acc => by simp
  | f :: files, acc => by
    rw [List.foldl_cons]
    by_cases he : toLowerStr (extname f) = ""
    · simp only [he, if_pos]
      rw [countFold_keys_mem ext files acc]
      constructor
      · rintro (h | h)
        · exact Or.inl h
        · exact Or.inr ⟨h.1, h.2.choose, List.mem_cons_of_mem f h.2.choose_spec.1,
            h.2.choose_spec.2⟩
      · rintro (h | ⟨hne, g, hg, hgx⟩)
        · exact Or.inl h
        · rcases List.mem_cons.mp hg with rfl | hg'
          · rw [he] at hgx
            exact absurd hgx.symm hne
          · exact Or.inr ⟨hne, g, hg', hgx⟩
    · simp only [if_neg he]
      rw [countFold_keys_mem ext files (bumpExt acc (toLowerStr (extname f)))]
      have hkeys : ext ∈ (bumpExt acc (toLowerStr (extname f))).map Prod.fst
          ↔ ext ∈ acc.map Prod.fst ∨ ext = toLowerStr (extname f) := by
        rw [bumpExt_keys (toLowerStr (extname f)) acc]
        by_cases hmem : toLowerStr (extname f) ∈ acc.map Prod.fst
        · rw [if_pos hmem]
          constructor
          · exact Or.inl
          · rintro (h | rfl)
            · exact h
            · exact hmem
        · rw [if_neg hmem]
          simp [List.mem_append]
      rw [hkeys]
      constructor
      · rintro ((h | rfl) | h)
        · exact Or.inl h
        · exact Or.inr ⟨he, f, List.mem_cons_self f files, rfl⟩
        · exact Or.inr ⟨h.1, h.2.choose, List.mem_cons_of_mem f h.2.choose_spec.1,
            h.2.choose_spec.2⟩
      · rintro (h | ⟨hne, g, hg, hgx⟩)
        · exact Or.inl (Or.inl h)
        · rcases List.mem_cons.mp hg with rfl | hg'
          · exact Or.inl (Or.inr hgx.symm)
          · exact Or.inr ⟨hne, g, hg', hgx⟩

theorem lookup_of_mem_nodup {β : Type} :
    ∀ {l : List (String × β)} {k : String} {v : β},
      (l.map Prod.fst).Nodup → (k, v) ∈ l → l.lookup k = some v
  | [], _, _, _, hm => absurd hm (List.not_mem_nil _)
  | (k', v') :: rest, k, v, hnd, hm => by
    rcases List.mem_cons.mp hm with heq | hrest
    · cases heq
      simp [List.lookup]
    · have hk : k ≠ k' := by
        intro h
        subst h
        have : k ∈ rest.map Prod.fst :=
          List.mem_map.mpr ⟨(k, v), hrest, rfl⟩
        exact (List.nodup_cons.mp hnd).1 this
      have hbeq : (k == k') = false := by simpa [beq_eq_false_iff_ne] using hk
      simp only [List.lookup, hbeq]
      exact lookup_of_mem_nodup (List.nodup_cons.mp hnd).2 hrest

theorem languagesUnsorted_mem {files : List String} {e : LanguageEntry}
    (he : e ∈ languagesUnsorted files) :
    extensionMap.lookup e.extension = some e.name
    ∧ (e.extension, e.count) ∈ countExtensions files := by
  unfold languagesUnsorted at he
  rcases List.mem_filterMap.mp he with ⟨p, hp, hsome⟩
  cases hl : extensionMap.lookup p.1 with
  | none => rw [hl] at hsome; cases hsome
  | some nm =>
    rw [hl] at hsome
    simp only [Option.some_inj] at hsome
    cases hsome
    exact ⟨hl, hp⟩

theorem filterMap_exts_sublist :
    ∀ (l : List (String × Nat)),
      List.Sublist
        ((l.filterMap (fun p =>
          match extensionMap.lookup p.1 with
          | some nm => some (⟨nm, p.2, p.1⟩ : LanguageEntry)
          | none => none)).map (fun e => e.extension))
        (l.map Prod.fst)
  | [] => List.Sublist.refl []
  | p :: l => by
    rw [List.filterMap_cons]
    cases hl : extensionMap.lookup p.1 with
    | none =>
      exact (filterMap_exts_sublist l).cons p.1
    | some nm =>
      simp only [List.map_cons]
      exact List.Sublist.cons₂ p.1 (filterMap_exts_sublist l)

theorem languagesUnsorted_exts_nodup (files : List String) :
    ((languagesUnsorted files).map (fun e => e.extension)).Nodup := by
  apply List.Nodup.sublist (filterMap_exts_sublist (countExtensions files))
  exact countFold_keys_nodup files [] List.nodup_nil

theorem filter_insertionSort_count (l : List LanguageEntry) (n : Nat) :
    (l.insertionSort countGE).filter (fun e => e.count == n)
      = l.filter (fun e => e.count == n) := by
  have hall : ∀ a ∈ l.filter (fun e => e.count == n), a.count = n := by
    intro a ha
    have := (List.mem_filter.mp ha).2
    simpa using this
  have hpw : (l.filter (fun e => e.count == n)).Pairwise countGE := by
    apply List.pairwise_of_forall_mem_list
    intro a ha b hb
    unfold countGE
    rw [hall a ha, hall b hb]
  have hsub : List.Sublist (l.filter (fun e => e.count == n))
      (l.insertionSort countGE) :=
    List.sublist_insertionSort hpw (List.filter_sublist l)
  have hsub2 : List.Sublist (l.filter (fun e => e.count == n))
      ((l.insertionSort countGE).filter (fun e => e.count == n)) := by
    have := List.Sublist.filter (fun e => e.count == n) hsub
    rwa [List.filter_eq_self.mpr (fun a ha => (List.mem_filter.mp ha).2)] at this
  have hlen : ((l.insertionSort countGE).filter (fun e => e.count == n)).length
      = (l.filter (fun e => e.count == n)).length :=
    (List.Perm.filter _ (List.perm_insertionSort countGE l)).length_eq
  exact (List.Sublist.eq_of_length hsub2 hlen.symm).symm

/- ===== Claim C1 ===== -/

/-- Counterexample for C1: with one .js file before one .css file the two
counts tie at 1 and detectLanguages keeps the first-occurrence order
JavaScript before CSS, while the claimed tie-break by extension string
ascending would demand CSS (.css) before JavaScript (.js); the produced
list therefore violates the claimed ordering. -/
theorem detectLanguages_tie_not_extension_sorted :
    detectLanguages ["a.js", "b.css"]
      = [⟨"JavaScript", 1, ".js"⟩, ⟨"CSS", 1, ".css"⟩]
    ∧ ¬ (detectLanguages ["a.js", "b.css"]).Pairwise specLangOrder := by
  constructor
  · decide
  · decide

/-- C1 as amended: the language list has one entry per distinct known
lowercased extension occurring in the file list, the count of an entry is
the number of files bearing its extension, the list is sorted descending
by count, and ties between equal counts keep the first-occurrence order
of the extensions in the file list (the stable order of the unsorted
histogram); the spec example with two .js files and one .css file is
produced exactly. -/
theorem detectLanguages_histogram_sorted (files : List String) :
    ((detectLanguages files).map (fun e => e.extension)).Nodup
    ∧ (∀ e ∈ detectLanguages files,
        extensionMap.lookup e.extension = some e.name
        ∧ e.count = (files.filter
            (fun f => toLowerStr (extname f) == e.extension)).length)
    ∧ (∀ ext nm, extensionMap.lookup ext = some nm →
        (∃ f ∈ files, toLowerStr (extname f) = ext) →
        ∃ e ∈ detectLanguages files, e.extension = ext)
    ∧ (detectLanguages files).Pairwise countGE
    ∧ (∀ n, (detectLanguages files).filter (fun e => e.count == n)
        = (languagesUnsorted files).filter (fun e => e.count == n))
    ∧ detectLanguages ["a.js", "b.js", "c.css"]
        = [⟨"JavaScript", 2, ".js"⟩, ⟨"CSS", 1, ".css"⟩] := by
  have hperm : List.Perm (detectLanguages files) (languagesUnsorted files) :=
    List.perm_insertionSort countGE (languagesUnsorted files)
  refine ⟨?_, ?_, ?_, ?_, ?_, by decide⟩
  · exact (List.Perm.nodup_iff (List.Perm.map _ hperm)).mpr
      (languagesUnsorted_exts_nodup files)
  · intro e he
    have he' : e ∈ languagesUnsorted files := (List.Perm.mem_iff hperm).mp he
    rcases languagesUnsorted_mem he' with ⟨hlk, hpair⟩
    refine ⟨hlk, ?_⟩
    have hnz : e.extension ≠ "" := by
      intro h
      rw [h] at hlk
      rw [(by decide : extensionMap.lookup "" = (none : Option String))] at hlk
      cases hlk
    have hl : (countExtensions files).lookup e.extension = some e.count :=
      lookup_of_mem_nodup (countFold_keys_nodup files [] List.nodup_nil) hpair
    have := countFold_lookup e.extension hnz files []
    unfold countExtensions at hl
    rw [hl] at this
    simpa using this
  · intro ext nm hlk hex
    have hmem : ext ∈ (countExtensions files).map Prod.fst := by
      unfold countExtensions
      rw [countFold_keys_mem ext files []]
      refine Or.inr ⟨?_, hex⟩
      intro h
      rw [h] at hlk
      rw [(by decide : extensionMap.lookup "" = (none : Option String))] at hlk
      cases hlk
    rcases List.mem_map.mp hmem with ⟨p, hp, hfst⟩
    have he : (⟨nm, p.2, ext⟩ : LanguageEntry) ∈ languagesUnsorted files := by
      unfold languagesUnsorted
      apply List.mem_filterMap.mpr
      refine ⟨p, hp, ?_⟩
      rw [hfst, hlk]
    exact ⟨⟨nm, p.2, ext⟩, (List.Perm.mem_iff hperm).mpr he, rfl⟩
  · exact List.sorted_insertionSort countGE (languagesUnsorted files)
  · intro n
    exact filter_insertionSort_count (languagesUnsorted files) n

/-- Witness for C1 at a concrete file list with a known extension. -/
theorem detectLanguages_histogram_sorted_witness :
    ∃ e ∈ detectLanguages ["x.py", "y.py"], e.extension = ".py" :=
  (detectLanguages_histogram_sorted ["x.py", "y.py"]).2.2.1 ".py" "Python"
    (by decide) ⟨"x.py", by decide, by decide⟩

/- ===== Helper lemmas: structure summarizer ===== -/

theorem flattenGroups_cons (d : String) (bs : List String)
    (rest : List (String × List String)) :
    flattenGroups ((d, bs) :: rest)
      = bs.map (fun b => (d, b)) ++ flattenGroups rest := by
  simp [flattenGroups]

theorem addToGroup_keys (dir base : String) :
    ∀ (g : List (String × List String)),
      (addToGroup g dir base).map Prod.fst
        = if dir ∈ g.map Prod.fst then g.map Prod.fst
          else g.map Prod.fst ++ [dir]
  | [] => by simp [addToGroup]
  | (d, bs) :: rest => by
    by_cases hd : d = dir
    · subst hd
      simp [addToGroup]
    · have hdd : ¬ dir = d := fun h => hd h.symm
      simp only [addToGroup, if_neg hd, List.map_cons]
      rw [addToGroup_keys dir base rest]
      by_cases hmem : dir ∈ rest.map Prod.fst
      · simp [hmem, hdd]
      · simp [hmem, hdd]

theorem addToGroup_flatten (dir base : String) :
    ∀ (g : List (String × List String)),
      List.Perm (flattenGroups (addToGroup g dir base))
        (flattenGroups g ++ [(dir, base)])
  | [] => by
    simp [addToGroup, flattenGroups]
  | (d, bs) :: rest => by
    by_cases hd : d = dir
    · subst hd
      have hstep : addToGroup ((d, bs) :: rest) d base
          = (d, bs ++ [base]) :: rest := by
        simp [addToGroup]
      rw [hstep, flattenGroups_cons, flattenGroups_cons]
      rw [List.map_append, List.map_singleton]
      rw [List.append_assoc, List.append_assoc]
      apply List.Perm.append_left
      exact List.perm_append_comm
    · have hstep : addToGroup ((d, bs) :: rest) dir base
          = (d, bs) :: addToGroup rest dir base := by
        simp [addToGroup, hd]
      rw [hstep, flattenGroups_cons, flattenGroups_cons]
      rw [List.append_assoc]
      apply List.Perm.append_left
      exact addToGroup_flatten dir base rest

theorem groupFold_keys_nodup :
    ∀ (files : List String) (acc : List (String × List String)),
      (acc.map Prod.fst).Nodup →
      (((files.foldl (fun g f => addToGroup g (dirname f) (basename f)) acc)).map
          Prod.fst).Nodup
  | [], _, h => h
  | f :: files, acc, h => by
    rw [List.foldl_cons]
    apply groupFold_keys_nodup files
    rw [addToGroup_keys (dirname f) (basename f) acc]
    by_cases hmem : dirname f ∈ acc.map Prod.fst
    · rw [if_pos hmem]
      exact h
    · rw [if_neg hmem]
      exact List.Nodup.append h (List.nodup_singleton _)
        (by
          intro a ha hb
          rcases List.mem_singleton.mp hb with rfl
          exact hmem ha)

theorem groupFold_flatten :
    ∀ (files : List String) (acc : List (String × List String)),
      List.Perm
        (flattenGroups (files.foldl
          (fun g f => addToGroup g (dirname f) (basename f)) acc))
        (flattenGroups acc ++ files.map (fun f => (dirname f, basename f)))
  | [], acc => by simp
  | f :: files, acc => by
    rw [List.foldl_cons, List.map_cons]
    have h1 := groupFold_flatten files (addToGroup acc (dirname f) (basename f))
    have h2 : List.Perm
        (flattenGroups (addToGroup acc (dirname f) (basename f))
          ++ files.map (fun f => (dirname f, basename f)))
        ((flattenGroups acc ++ [(dirname f, basename f)])
          ++ files.map (fun f => (dirname f, basename f))) :=
      List.Perm.append_right _ (addToGroup_flatten (dirname f) (basename f) acc)
    have h3 := h1.trans h2
    rw [List.append_assoc, List.singleton_append] at h3
    exact h3

theorem flattenGroups_fst_mem {d b : String} :
    ∀ {gs : List (String × List String)},
      (d, b) ∈ flattenGroups gs → d ∈ gs.map Prod.fst := by
  intro gs hm
  rcases List.mem_flatMap.mp hm with ⟨p, hp, hpb⟩
  rcases List.mem_map.mp hpb with ⟨x, _hx, hxe⟩
  have : p.1 = d := congrArg Prod.fst hxe
  exact List.mem_map.mpr ⟨p, hp, this⟩

theorem charListLE_total :
    ∀ (as bs : List Char), charListLE as bs = true ∨ charListLE bs as = true
  | [], _ => Or.inl rfl
  | _ :: _, [] => Or.inr rfl
  | a :: as, b :: bs => by
    by_cases hab : a = b
    · subst hab
      simp only [charListLE, if_pos rfl]
      exact charListLE_total as bs
    · have hba : ¬ b = a := fun h => hab h.symm
      simp only [charListLE, if_neg hab, if_neg hba]
      rcases lt_or_gt_of_ne (show a ≠ b from hab) with h | h
      · exact Or.inl (decide_eq_true h)
      · exact Or.inr (decide_eq_true h)

theorem charListLE_trans :
    ∀ (as bs cs : List Char), charListLE as bs = true →
      charListLE bs cs = true → charListLE as cs = true
  | [], _, _, _, _ => rfl
  | _ :: _, [], _, h1, _ => by cases h1
  | _ :: _, _ :: _, [], _, h2 => by cases h2
  | a :: as, b :: bs, c :: cs, h1, h2 => by
    by_cases hab : a = b
    · subst hab
      by_cases hac : a = c
      · subst hac
        simp only [charListLE, if_pos rfl] at h1 h2 ⊢
        exact charListLE_trans as bs cs h1 h2
      · simp only [charListLE, if_pos rfl] at h1
        simp only [charListLE, if_neg hac] at h2 ⊢
        exact h2
    · simp only [charListLE, if_neg hab] at h1
      have hab' : a < b := of_decide_eq_true h1
      by_cases hbc : b = c
      · subst hbc
        simp only [charListLE, if_neg hab]
        exact decide_eq_true hab'
      · simp only [charListLE, if_neg hbc] at h2
        have hbc' : b < c := of_decide_eq_true h2
        have hac : a < c := lt_trans hab' hbc'
        simp only [charListLE, if_neg (ne_of_lt hac)]
        exact decide_eq_true hac


theorem foldl_strAppend (g : String → String) :
    ∀ (l : List String) (init : String),
      l.foldl (fun a f => a ++ g f) init
        = init ++ l.foldl (fun a f => a ++ g f) ""
  | [], init => by simp
  | f :: l, init => by
    rw [List.foldl_cons, List.foldl_cons]
    rw [foldl_strAppend g l (init ++ g f), foldl_strAppend g l ("" ++ g f)]
    rw [show ("" ++ g f) = g f from rfl]
    rw [String.append_assoc]

theorem renderGroup_heading (acc dir : String) (fs : List String) :
    renderGroup acc dir fs
      = acc ++ ((if dir = "." then "Root directory:\n" else dir ++ "/:\n")
          ++ ((fs.foldl (fun a f => a ++ ("  - " ++ (f ++ "\n"))) "") ++ "\n")) := by
  unfold renderGroup
  have hfun : (fun (a f : String) => a ++ "  - " ++ f ++ "\n")
      = (fun (a f : String) => a ++ ("  - " ++ (f ++ "\n"))) := by
    funext a f
    rw [String.append_assoc, String.append_assoc]
  rw [hfun]
  show List.foldl (fun a f => a ++ ("  - " ++ (f ++ "\n")))
      (acc ++ (if dir = "." then "Root directory:\n" else dir ++ "/:\n")) fs
      ++ "\n" = _
  rw [foldl_strAppend (fun f => "  - " ++ (f ++ "\n")) fs
    (acc ++ (if dir = "." then "Root directory:\n" else dir ++ "/:\n"))]
  rw [String.append_assoc, String.append_assoc]

/- ===== Claim C8 ===== -/

/-- C8: the groups of the structure summarizer partition the file list
exactly, with pairwise distinct directory keys, each file contributing
its (dirname, basename) pair to exactly one group and the union of the
groups being a permutation of those pairs; the rendered text is the fold
over the keys sorted ascending, with the files of each group sorted
ascending, and the root group uses the literal heading Root directory:
while other groups print the directory path and a trailing marker. -/
theorem analyzeStructure_partition (files : List String) :
    ((groupByDir files).map Prod.fst).Nodup
    ∧ List.Perm (flattenGroups (groupByDir files))
        (files.map (fun f => (dirname f, basename f)))
    ∧ (∀ f ∈ files, ((groupByDir files).map Prod.fst).count (dirname f) = 1)
    ∧ (((groupByDir files).map Prod.fst).insertionSort strLE).Pairwise strLE
    ∧ List.Perm (((groupByDir files).map Prod.fst).insertionSort strLE)
        ((groupByDir files).map Prod.fst)
    ∧ (∀ d, ((((groupByDir files).lookup d).getD []).insertionSort strLE).Pairwise
        strLE)
    ∧ (∀ acc dir fs, renderGroup acc dir fs
        = acc ++ ((if dir = "." then "Root directory:\n" else dir ++ "/:\n")
            ++ ((fs.foldl (fun a f => a ++ ("  - " ++ (f ++ "\n"))) "") ++ "\n")))
    ∧ analyzeStructure files
        = (((groupByDir files).map Prod.fst).insertionSort strLE).foldl
            (fun acc dir => renderGroup acc dir
              ((((groupByDir files).lookup dir).getD []).insertionSort strLE))
            "" := by
  have hnd : ((groupByDir files).map Prod.fst).Nodup :=
    groupFold_keys_nodup files [] List.nodup_nil
  have hpm : List.Perm (flattenGroups (groupByDir files))
      (files.map (fun f => (dirname f, basename f))) := by
    have := groupFold_flatten files []
    simpa [flattenGroups] using this
  refine ⟨hnd, hpm, ?_, ?_, ?_, ?_, renderGroup_heading, rfl⟩
  · intro f hf
    apply List.count_eq_one_of_mem hnd
    apply flattenGroups_fst_mem
    apply (List.Perm.mem_iff hpm).mpr
    exact List.mem_map.mpr ⟨f, hf, rfl⟩
  · haveI : IsTotal String strLE := ⟨fun a b => charListLE_total a.data b.data⟩
    haveI : IsTrans String strLE :=
      ⟨fun a b c => charListLE_trans a.data b.data c.data⟩
    exact List.sorted_insertionSort strLE ((groupByDir files).map Prod.fst)
  · exact List.perm_insertionSort strLE ((groupByDir files).map Prod.fst)
  · intro d
    haveI : IsTotal String strLE := ⟨fun a b => charListLE_total a.data b.data⟩
    haveI : IsTrans String strLE :=
      ⟨fun a b c => charListLE_trans a.data b.data c.data⟩
    exact List.sorted_insertionSort strLE (((groupByDir files).lookup d).getD [])

/-- Witness for C8: the file in directory a of a two-file list lands in
exactly one group. -/
theorem analyzeStructure_partition_witness :
    ((groupByDir ["b.js", "a/x.js"]).map Prod.fst).count (dirname "a/x.js") = 1 :=
  (analyzeStructure_partition ["b.js", "a/x.js"]).2.2.1 "a/x.js" (by decide)
